import Mathlib

/-!
Verification of the fork-join task scheduler core and the thread-private
spike store of the nestmc prototype.

The spike-store operations (`gather`, `clear`, `get`) are embedded directly
from `src/arbor/thread_private_spike_store.cpp`.  The scheduler itself
(worker queues, task system, task groups, `parallel_for`) is present in the
repository only through its unit tests, so those components are modelled
from the specification text and marked as such in their doc comments.
-/

namespace NestMC

/-! ## Per-thread store and the thread-private spike store -/

/-- Modelled from the spec: the repository's `enumerable_thread_specific<T>`
container is missing from the sources; per §3/§4.5, iteration over it yields
one entry (slot) per worker identity that has been touched, in an unspecified
but fixed order.  We represent the store by that iteration sequence. -/
structure enumerable_thread_specific (T : Type) where
  data : List T

/-- Embedded from `thread_private_spike_store.cpp`: the pimpl struct holding
the per-thread spike buffers.  The spike type is kept abstract as `σ`. -/
structure local_spike_store_type (σ : Type) where
  buffers_ : enumerable_thread_specific (List σ)

/-- Embedded from `thread_private_spike_store.cpp`: the store owns one impl. -/
structure thread_private_spike_store (σ : Type) where
  impl_ : local_spike_store_type σ

namespace thread_private_spike_store

/-- Embedded from `gather`, first loop: `for (auto& b : buffers_) num_spikes += b.size();`. -/
def sizeLoop {σ : Type} : List (List σ) → Nat
  | [] => 0
  | b :: bs => b.length + sizeLoop bs

/-- Embedded from `gather`, second loop:
`for (auto& b : buffers_) spikes.insert(spikes.begin(), b.begin(), b.end());`.
Each buffer is inserted at the *front* of the accumulating vector. -/
def insertLoop {σ : Type} : List (List σ) → List σ → List σ
  | [], spikes => spikes
  | b :: bs, spikes => insertLoop bs (b ++ spikes)

/-- Embedded from `thread_private_spike_store::gather`: runs the two loops on
the store's buffers (the first loop only computes a reservation size and has
no effect on the returned vector). -/
def gather {σ : Type} (s : thread_private_spike_store σ) : List σ :=
  insertLoop s.impl_.buffers_.data []

/-- State-passing form of the second `gather` loop: it threads the list of
buffers it iterates over, returning the result vector together with the
buffers as left behind by the iteration (the loop only reads each `b`). -/
def insertLoopS {σ : Type} : List (List σ) → List σ → List σ × List (List σ)
  | [], spikes => (spikes, [])
  | b :: bs, spikes =>
    let r := insertLoopS bs (b ++ spikes)
    (r.1, b :: r.2)

/-- State-passing form of `thread_private_spike_store::gather`: returns the
gathered vector together with the store as left behind by the call (the
method is `const`; every access to the store in its body is a read). -/
def gatherS {σ : Type} (s : thread_private_spike_store σ) :
    List σ × thread_private_spike_store σ :=
  let r := insertLoopS s.impl_.buffers_.data []
  (r.1, ⟨⟨⟨r.2⟩⟩⟩)

/-- Embedded from `thread_private_spike_store::clear`, body of
`for (auto& b : buffers_) b.clear();`: every buffer is emptied in place. -/
def clearLoop {σ : Type} : List (List σ) → List (List σ)
  | [] => []
  | _ :: bs => [] :: clearLoop bs

/-- Embedded from `thread_private_spike_store::clear`. -/
def clear {σ : Type} (s : thread_private_spike_store σ) :
    thread_private_spike_store σ :=
  ⟨⟨⟨clearLoop s.impl_.buffers_.data⟩⟩⟩

end thread_private_spike_store

/-! ## Worker queue (notification queue)

Modelled from the spec, §4.1: a worker queue holds an ordered FIFO sequence
of pending tasks, mutated only under its own lock, plus a closed flag.  The
task type is kept abstract as `τ`. -/

/-- Modelled from the spec: the worker queue's state — the pending tasks in
FIFO order (head = next to pop), whether its lock is currently held by some
other thread, and whether `quit()` has closed it. -/
structure notification_queue (τ : Type) where
  tasks : List τ
  locked : Bool
  closed : Bool

/-- Result type of `try_pop`, modelled from the spec: on lock contention the
caller learns `unavailable`, which is distinct from `empty`. -/
inductive TryPopResult (τ : Type) where
  | unavailable : TryPopResult τ
  | empty : TryPopResult τ
  | got : τ → TryPopResult τ
deriving DecidableEq

namespace notification_queue

/-- Modelled from the spec: `push(task)` appends to the tail under the
queue's lock; it never fails while the queue is accepting. -/
def push {τ : Type} (q : notification_queue τ) (t : τ) : notification_queue τ :=
  { q with tasks := q.tasks ++ [t] }

/-- Modelled from the spec: `try_pop` attempts to acquire the lock without
blocking; on contention it returns `unavailable`; otherwise it removes and
returns the head task, or reports `empty`. -/
def try_pop {τ : Type} (q : notification_queue τ) :
    TryPopResult τ × notification_queue τ :=
  if q.locked then (TryPopResult.unavailable, q)
  else
    match q.tasks with
    | [] => (TryPopResult.empty, q)
    | t :: ts => (TryPopResult.got t, { q with tasks := ts })

/-- Modelled from the spec: a successful (blocking) pop removes and returns
the head task; on an empty queue there is nothing to return. -/
def pop {τ : Type} (q : notification_queue τ) : Option (τ × notification_queue τ) :=
  match q.tasks with
  | [] => none
  | t :: ts => some (t, { q with tasks := ts })

/-- The sequence of tasks obtained by popping the queue until it is empty,
in pop order. -/
def popAll {τ : Type} (q : notification_queue τ) : List τ :=
  match h : pop q with
  | none => []
  | some r => r.1 :: popAll r.2
termination_by q.tasks.length
decreasing_by
  simp only [pop] at h
  cases hq : q.tasks with
  | nil => rw [hq] at h; exact absurd h (by simp)
  | cons t ts => rw [hq] at h; simp at h; rw [← h]; simp [hq]

end notification_queue

/-! ## Task group

Modelled from the spec, §4.3: a task group tracks, in an atomic counter, how
many forked tasks are still outstanding, and records the first error raised
by any of its tasks.  We model one group's interaction history as a trace of
events — `run i` forks task `i`, `complete i res` is the execution of task
`i`'s wrapper, with `res = some e` when the task body raised error `e`.
Errors are represented by natural-number codes. -/

/-- Modelled from the spec: one observable event on a task group. -/
inductive GEvent where
  | run : Nat → GEvent
  | complete : Nat → Option Nat → GEvent
deriving DecidableEq

namespace task_group

/-- Tasks forked so far in a trace (earliest event first). -/
def runsOf : List GEvent → List Nat
  | [] => []
  | GEvent.run i :: tr => i :: runsOf tr
  | GEvent.complete _ _ :: tr => runsOf tr

/-- Tasks whose wrapper has executed so far in a trace. -/
def completesOf : List GEvent → List Nat
  | [] => []
  | GEvent.run _ :: tr => completesOf tr
  | GEvent.complete i _ :: tr => i :: completesOf tr

/-- Errors raised by completed tasks, in completion order. -/
def errorsOf : List GEvent → List Nat
  | [] => []
  | GEvent.run _ :: tr => errorsOf tr
  | GEvent.complete _ (some e) :: tr => e :: errorsOf tr
  | GEvent.complete _ none :: tr => errorsOf tr

/-- Validity of a trace continuation given the ids already forked (`ran`)
and already completed (`done`): a task completes only after it was forked,
each forked id is fresh, and each task's wrapper executes exactly once. -/
def validFrom (ran done : List Nat) : List GEvent → Bool
  | [] => true
  | GEvent.run i :: tr => !(ran.contains i) && validFrom (i :: ran) done tr
  | GEvent.complete i _ :: tr =>
    ran.contains i && !(done.contains i) && validFrom ran (i :: done) tr

/-- A valid group trace, started from a fresh group. -/
def ValidTrace (tr : List GEvent) : Prop :=
  validFrom [] [] tr = true

/-- Modelled from the spec: the group's shared state — the outstanding
counter (an integer, so that its non-negativity is a theorem rather than a
typing artifact) and the first recorded error, if any. -/
structure GroupState where
  counter : Int
  err : Option Nat
deriving DecidableEq

/-- Modelled from the spec: `run` increments the outstanding counter; the
completion wrapper decrements it and records the task's error only when no
error has been recorded yet (first error wins, later ones are discarded). -/
def applyEvent (g : GroupState) : GEvent → GroupState
  | GEvent.run _ => { g with counter := g.counter + 1 }
  | GEvent.complete _ res =>
    { counter := g.counter - 1,
      err := match g.err with
             | some e => some e
             | none => res }

/-- The group state after a trace of events, starting from a fresh group. -/
def groupAfter (tr : List GEvent) : GroupState :=
  tr.foldl applyEvent ⟨0, none⟩

/-- Modelled from the spec: what `wait()` does once the outstanding counter
has reached zero — if an error was recorded it is re-raised to the caller
exactly once, and the group is reset (counter zero, no recorded error) so it
may be reused. -/
def waitResult (g : GroupState) : Except Nat Unit × GroupState :=
  (match g.err with
   | some e => Except.error e
   | none => Except.ok (),
   { counter := g.counter, err := none })

end task_group

/-! ## Parallel range runner

Modelled from the spec, §4.4: `apply(begin, end, body)` partitions
`[begin, end)` into at most `worker_count` contiguous non-empty chunks and
runs one task per chunk, each invoking `body(i)` sequentially over its
chunk. -/

namespace parallel_for

/-- Modelled from the spec: the chunk size used to partition a range of
length `e - b` over `nw` workers — the ceiling of length over worker count,
at least 1 so that every chunk is non-empty. -/
def chunkSize (b e nw : Nat) : Nat :=
  max 1 ((e - b + nw - 1) / nw)

/-- Modelled from the spec: the contiguous chunks of `[b, e)` of size `c`
(the final chunk may be shorter).  Each chunk is the list of indices one
task will pass to `body` sequentially. -/
def chunkTasks (b e c : Nat) : List (List Nat) :=
  if h : b < e ∧ 0 < c then
    List.range' b (min c (e - b)) :: chunkTasks (b + min c (e - b)) e c
  else []
termination_by e - b
decreasing_by
  omega

/-- Modelled from the spec: the list of per-chunk tasks created by
`apply(b, e, body)` on a pool of `nw` workers, each task given by the list
of indices it invokes `body` on. -/
def tasks (b e nw : Nat) : List (List Nat) :=
  chunkTasks b e (chunkSize b e nw)

/-- The indices at which `body` is invoked by `apply(b, e, body)`, in the
order the chunks were created (one chunk's invocations are sequential). -/
def invocations (b e nw : Nat) : List Nat :=
  (tasks b e nw).flatten

end parallel_for

/-! ## Scheduler transition system: nested fork-join without deadlock

Modelled from the spec, §4.2–§4.4 and §5: a fixed pool of workers executes
tasks; executing a task that is a nested `parallel_for` forks its sub-tasks
into the pool and makes the executing worker *wait with helping* — while the
group's counter is nonzero the worker performs the pool's work-stealing step
(it picks up any pending task) instead of blocking, and waits are properly
nested (the inner `apply` returns before the enclosing body resumes).  The
individual worker queues are abstracted into one pool of pending tasks: the
stealing sweep examines every queue, so which queue holds a pending task
does not affect progress or termination. -/

/-- The shape of a unit of work: either an atomic body, or a nested
`parallel_for` that forks one sub-work per element and joins them all.
Arbitrary nesting depth is expressed by the recursion. -/
inductive Work where
  | atom : Work
  | pfor : List Work → Work

namespace scheduler

/-- Size of a work tree (number of tasks it will ever fork, itself included). -/
def sizeW : Work → Nat
  | Work.atom => 1
  | Work.pfor [] => 1
  | Work.pfor (w :: ws) => sizeW w + sizeW (Work.pfor ws)

/-- A wait frame on a worker's stack: the task group created by one nested
`parallel_for` — its unique id, the id of the group its forking task belongs
to (0 for the caller's root group), and its outstanding counter. -/
structure Frame where
  fid : Nat
  parent : Nat
  counter : Nat

/-- A pending task: the work to do and the id of the group it was forked on. -/
structure PTask where
  parent : Nat
  work : Work

/-- Global scheduler state: the pool's pending tasks, one stack of wait
frames per worker (head = innermost wait), the root group's outstanding
counter, and the next fresh frame id. -/
structure SState where
  pend : List PTask
  wstacks : List (List Frame)
  root : Nat
  next : Nat

/-- All live wait frames, across every worker's stack. -/
def allFrames (s : SState) : List Frame :=
  s.wstacks.flatten

/-- Decrement the counter of the frame with id `p` (pointwise over every
stack; frame ids are unique in reachable states). -/
def decFrame (p : Nat) (f : Frame) : Frame :=
  if f.fid = p then { f with counter := f.counter - 1 } else f

/-- Record that one outstanding task of group `p` has completed: decrement
the root counter when `p` is the root group, else the counter of frame `p`. -/
def dec (p : Nat) (s : SState) : SState :=
  if p = 0 then { s with root := s.root - 1 }
  else { s with wstacks := s.wstacks.map (List.map (decFrame p)) }

/-- One scheduler step.  `atom`: some worker picks a pending atomic task and
runs it to completion, which decrements its group's counter.  `pfor`: some
worker `w` picks a pending nested-`parallel_for` task; it creates a fresh
group, forks the sub-tasks into the pool, and enters a helping wait (a new
frame on `w`'s stack).  `pop`: a worker whose innermost wait's counter has
reached zero returns from that `wait()`, completing the forking task, which
decrements *its* group's counter.  A worker whose innermost frame still has
a nonzero counter participates via `atom`/`pfor` (the helping wait steals
pending work); no step ever blocks. -/
inductive Step : SState → SState → Prop where
  | atom (s : SState) (l r : List PTask) (p : Nat) :
      0 < s.wstacks.length →
      s.pend = l ++ ⟨p, Work.atom⟩ :: r →
      Step s (dec p { s with pend := l ++ r })
  | pfor (s : SState) (l r : List PTask) (p : Nat) (ws : List Work)
      (w : Nat) (stk : List Frame) :
      s.pend = l ++ ⟨p, Work.pfor ws⟩ :: r →
      s.wstacks.get? w = some stk →
      Step s { pend := (l ++ r) ++ ws.map (fun wk => ⟨s.next, wk⟩),
               wstacks := s.wstacks.set w (⟨s.next, p, ws.length⟩ :: stk),
               root := s.root,
               next := s.next + 1 }
  | pop (s : SState) (w : Nat) (f : Frame) (rest : List Frame) :
      s.wstacks.get? w = some (f :: rest) →
      f.counter = 0 →
      Step s (dec f.parent { s with wstacks := s.wstacks.set w rest })

/-- Reachability under scheduler steps. -/
def Reach : SState → SState → Prop :=
  Relation.ReflTransGen Step

/-- Initial state of a top-level fork-join call on a pool of `nw` workers:
the caller forks the whole work tree as one task on the root group (counter
one) and waits for the root counter to reach zero; every worker is idle. -/
def init (nw : Nat) (w : Work) : SState :=
  { pend := [⟨0, w⟩],
    wstacks := List.replicate nw [],
    root := 1,
    next := 1 }

/-- The computation is finished: the root group's counter has reached zero,
so the caller's `wait()` returns. -/
def Done (s : SState) : Prop :=
  s.root = 0

/-- Termination measure: twice the work remaining in pending tasks, plus the
number of live wait frames.  Every step strictly decreases it. -/
def smeasure (s : SState) : Nat :=
  2 * (s.pend.map (fun t => sizeW t.work)).sum + (allFrames s).length

/-- Invariant of reachable states.  Frame ids are positive, bounded by
`next`, distinct, and a frame's group is older than the frame itself; every
referenced group is the root or a live frame; on each worker's stack the
frames are ordered newest (innermost) first; and every group's counter
counts exactly its outstanding children — pending tasks forked on it plus
live frames of nested `parallel_for`s forked on it. -/
structure Inv (s : SState) : Prop where
  nworkers : 0 < s.wstacks.length
  next_pos : 0 < s.next
  frame_ids : ∀ f ∈ allFrames s, 0 < f.fid ∧ f.fid < s.next ∧ f.parent < f.fid
  frame_parent_live : ∀ f ∈ allFrames s,
    f.parent = 0 ∨ ∃ g ∈ allFrames s, g.fid = f.parent
  pend_parent : ∀ t ∈ s.pend, t.parent < s.next ∧
    (t.parent = 0 ∨ ∃ g ∈ allFrames s, g.fid = t.parent)
  stack_sorted : ∀ stk ∈ s.wstacks, stk.Pairwise (fun a b => b.fid < a.fid)
  counter_eq : ∀ f ∈ allFrames s,
    f.counter = s.pend.countP (fun t => t.parent == f.fid) +
      (allFrames s).countP (fun g => g.parent == f.fid)
  root_eq : s.root = s.pend.countP (fun t => t.parent == 0) +
      (allFrames s).countP (fun g => g.parent == 0)

end scheduler

/-! ## Theorems: thread-private spike store -/

namespace thread_private_spike_store

theorem insertLoop_eq {σ : Type} :
    ∀ (bs : List (List σ)) (acc : List σ),
      insertLoop bs acc = bs.reverse.flatten ++ acc := by
  intro bs
  induction bs with
  | nil => intro acc; simp [insertLoop]
  | cons b bs ih => intro acc; simp [insertLoop, ih]

theorem gather_eq {σ : Type} (s : thread_private_spike_store σ) :
    gather s = s.impl_.buffers_.data.reverse.flatten := by
  simp [gather, insertLoop_eq]

theorem sizeLoop_eq {σ : Type} (bs : List (List σ)) :
    sizeLoop bs = (bs.map List.length).sum := by
  induction bs with
  | nil => simp [sizeLoop]
  | cons b bs ih => simp [sizeLoop, ih]

theorem clearLoop_eq {σ : Type} (bs : List (List σ)) :
    clearLoop bs = bs.map (fun _ => []) := by
  induction bs with
  | nil => simp [clearLoop]
  | cons b bs ih => simp [clearLoop, ih]

theorem insertLoopS_eq {σ : Type} :
    ∀ (bs : List (List σ)) (acc : List σ),
      insertLoopS bs acc = (insertLoop bs acc, bs) := by
  intro bs
  induction bs with
  | nil => intro acc; simp [insertLoopS, insertLoop]
  | cons b bs ih => intro acc; simp [insertLoopS, insertLoop, ih]

end thread_private_spike_store

/-- C8: the per-thread store supports the spike-buffer usage pattern —
`thread_private_spike_store::gather()` returns the concatenation of all
touched slots' contents (it is the flattening of the slot sequence in
reverse iteration order, hence a permutation of all buffered spikes: every
spike in every thread-local buffer appears in the result, with
multiplicity), and `thread_private_spike_store::clear()` empties every
existing slot in place without removing any slot. -/
theorem spike_store_gather_clear {σ : Type} (s : thread_private_spike_store σ) :
    thread_private_spike_store.gather s = s.impl_.buffers_.data.reverse.flatten ∧
    (thread_private_spike_store.gather s).Perm s.impl_.buffers_.data.flatten ∧
    (thread_private_spike_store.clear s).impl_.buffers_.data =
      s.impl_.buffers_.data.map (fun _ => []) := by
  refine ⟨thread_private_spike_store.gather_eq s, ?_, ?_⟩
  · rw [thread_private_spike_store.gather_eq s]
    exact (s.impl_.buffers_.data.reverse_perm).flatten
  · simp [thread_private_spike_store.clear, thread_private_spike_store.clearLoop_eq]

/-- C9: `thread_private_spike_store::gather()` returns a vector whose length
is the sum of the sizes of all thread-local buffers (the value computed by
the first loop of `gather`), and whose element order places later-iterated
buffers before earlier-iterated ones, because each buffer is inserted at the
front of the accumulating result: the result is the concatenation of the
buffers in reverse of the store's iteration order. -/
theorem spike_store_gather_order {σ : Type} (s : thread_private_spike_store σ) :
    (thread_private_spike_store.gather s).length =
      thread_private_spike_store.sizeLoop s.impl_.buffers_.data ∧
    thread_private_spike_store.sizeLoop s.impl_.buffers_.data =
      (s.impl_.buffers_.data.map List.length).sum ∧
    thread_private_spike_store.gather s = s.impl_.buffers_.data.reverse.flatten := by
  refine ⟨?_, thread_private_spike_store.sizeLoop_eq _, thread_private_spike_store.gather_eq s⟩
  rw [thread_private_spike_store.gather_eq s, thread_private_spike_store.sizeLoop_eq]
  simp [List.sum_reverse]

/-- C10: `thread_private_spike_store::gather()` leaves the store unchanged —
the state-passing form of the method returns exactly the gathered vector
together with the store it was given: every thread-local buffer still holds
exactly the spikes it held before the call, and no slot is created or
removed. -/
theorem spike_store_gather_frame {σ : Type} (s : thread_private_spike_store σ) :
    thread_private_spike_store.gatherS s = (thread_private_spike_store.gather s, s) := by
  simp [thread_private_spike_store.gatherS, thread_private_spike_store.gather,
    thread_private_spike_store.insertLoopS_eq]

/-! ## Theorems: worker queue -/

namespace notification_queue

theorem popAll_eq {τ : Type} :
    ∀ (ts : List τ) (lk cl : Bool), popAll ⟨ts, lk, cl⟩ = ts := by
  intro ts
  induction ts with
  | nil => intro lk cl; rw [popAll]; simp [pop]
  | cons t ts ih => intro lk cl; rw [popAll]; simp [pop, ih]

end notification_queue

/-- C6: the worker queue is FIFO relative to a single submitter — for every
queue state and every pair of tasks pushed in order, draining the queue by
successive pops yields the earlier-pushed task before the later one (each
appended at the tail, popped from the head). -/
theorem notification_queue_fifo {τ : Type} (q : notification_queue τ) (a b : τ) :
    ((q.push a).push b).popAll = q.popAll ++ [a, b] := by
  obtain ⟨ts, lk, cl⟩ := q
  simp [notification_queue.push, notification_queue.popAll_eq]

/-- C7: `try_pop` has a three-valued result — it reports `unavailable`
exactly when the queue's lock is contended, and `unavailable` is distinct
from `empty`; absent contention it reports `empty` on an empty queue and
otherwise removes and returns the head task, so a caller can distinguish a
contended queue from an empty one. -/
theorem notification_queue_try_pop_trichotomy {τ : Type} (q : notification_queue τ) :
    (TryPopResult.unavailable ≠ (TryPopResult.empty : TryPopResult τ)) ∧
    (q.try_pop.1 = TryPopResult.unavailable ↔ q.locked = true) ∧
    (q.locked = false → q.tasks = [] → q.try_pop.1 = TryPopResult.empty) ∧
    (q.locked = false → ∀ t ts, q.tasks = t :: ts →
      q.try_pop.1 = TryPopResult.got t ∧ q.try_pop.2.tasks = ts) := by
  obtain ⟨ts, lk, cl⟩ := q
  cases lk <;> cases ts <;>
    simp [notification_queue.try_pop]

/-- Witness for C7 at a concrete queue: an unlocked queue holding one task
yields that task, with the task removed. -/
theorem notification_queue_try_pop_trichotomy_witness :
    (notification_queue.try_pop (⟨[5], false, false⟩ : notification_queue Nat)).1 =
      TryPopResult.got 5 ∧
    (notification_queue.try_pop (⟨[5], false, false⟩ : notification_queue Nat)).2.tasks = [] :=
  (notification_queue_try_pop_trichotomy
    (⟨[5], false, false⟩ : notification_queue Nat)).2.2.2 rfl 5 [] rfl

/-! ## Theorems: parallel range runner -/

namespace parallel_for

theorem chunkSize_pos (b e nw : Nat) : 0 < chunkSize b e nw :=
  lt_of_lt_of_le one_pos (le_max_left _ _)

theorem chunkTasks_flatten {c : Nat} (hc : 0 < c) :
    ∀ (n b e : Nat), e - b ≤ n → (chunkTasks b e c).flatten = List.range' b (e - b) := by
  intro n
  induction n with
  | zero =>
    intro b e h
    rw [chunkTasks, dif_neg (by omega)]
    have hz : e - b = 0 := by omega
    simp [hz]
  | succ n ih =>
    intro b e h
    by_cases hb : b < e
    · rw [chunkTasks, dif_pos ⟨hb, hc⟩]
      have hm : 1 ≤ min c (e - b) := by omega
      rw [List.flatten_cons, ih (b + min c (e - b)) e (by omega)]
      have he : e - (b + min c (e - b)) = e - b - min c (e - b) := by omega
      rw [he, List.range'_append_1]
      congr 1
      omega
    · rw [chunkTasks, dif_neg (by omega)]
      have hz : e - b = 0 := by omega
      simp [hz]

theorem invocations_eq (b e nw : Nat) :
    invocations b e nw = List.range' b (e - b) :=
  chunkTasks_flatten (chunkSize_pos b e nw) (e - b) b e le_rfl

end parallel_for

/-- C1: for every range length `N` and every pool size, `parallel_for`'s
`apply(0, N, body)` invokes `body(i)` exactly once for each index `i` in
`[0, N)` — the multiset of invoked indices counts every such `i` once and
any other index zero times — and for an empty range (`begin = end`) the
chunk partition is empty, so no task is created and no index is invoked. -/
theorem parallel_for_exhaustive (N nw i : Nat) :
    ((parallel_for.invocations 0 N nw).count i = if i < N then 1 else 0) ∧
    (∀ b, parallel_for.tasks b b nw = []) := by
  constructor
  · rw [parallel_for.invocations_eq]
    have hr : List.range' 0 (N - 0) = List.range N := by
      rw [Nat.sub_zero, List.range_eq_range']
    rw [hr]
    by_cases h : i < N
    · rw [if_pos h]
      exact List.count_eq_one_of_mem (List.nodup_range N) (List.mem_range.2 h)
    · rw [if_neg h]
      exact List.count_eq_zero_of_not_mem (fun hm => h (List.mem_range.1 hm))
  · intro b
    rw [parallel_for.tasks, parallel_for.chunkTasks, dif_neg (by omega)]

/-! ## Theorems: task group -/

namespace task_group

theorem foldl_applyEvent : ∀ (tr : List GEvent) (g : GroupState),
    tr.foldl applyEvent g =
      ⟨g.counter + (runsOf tr).length - (completesOf tr).length,
       match g.err with
       | some e => some e
       | none => (errorsOf tr).head?⟩ := by
  intro tr
  induction tr with
  | nil =>
    intro g
    cases g with
    | mk c err => cases err <;> simp [runsOf, completesOf, errorsOf]
  | cons ev tr ih =>
    intro g
    cases ev with
    | run i =>
      rw [List.foldl_cons, ih]
      cases hg : g.err <;>
        simp [applyEvent, runsOf, completesOf, errorsOf, hg] <;> ring
    | complete i res =>
      rw [List.foldl_cons, ih]
      cases hg : g.err <;> cases res <;>
        simp [applyEvent, runsOf, completesOf, errorsOf, hg] <;> ring

theorem groupAfter_eq (tr : List GEvent) :
    groupAfter tr =
      ⟨((runsOf tr).length : Int) - (completesOf tr).length, (errorsOf tr).head?⟩ := by
  rw [groupAfter, foldl_applyEvent]
  simp

theorem runsOf_facts : ∀ (tr : List GEvent) (ran done : List Nat),
    validFrom ran done tr = true →
    (∀ i ∈ runsOf tr, i ∉ ran) ∧ (runsOf tr).Nodup := by
  intro tr
  induction tr with
  | nil => intro ran done _; simp [runsOf]
  | cons ev tr ih =>
    intro ran done hv
    cases ev with
    | run i =>
      simp only [validFrom, Bool.and_eq_true, Bool.not_eq_true'] at hv
      obtain ⟨hi, hv⟩ := hv
      obtain ⟨hmem, hnd⟩ := ih (i :: ran) done hv
      constructor
      · intro j hj
        simp only [runsOf, List.mem_cons] at hj
        rcases hj with rfl | hj
        · simpa using hi
        · have := hmem j hj
          simp only [List.mem_cons] at this
          tauto
      · simp only [runsOf, List.nodup_cons]
        refine ⟨fun hin => ?_, hnd⟩
        have := hmem i hin
        simp at this
    | complete i res =>
      simp only [validFrom, Bool.and_eq_true, Bool.not_eq_true'] at hv
      obtain ⟨_, hv⟩ := hv
      simpa [runsOf] using ih ran (i :: done) hv

theorem completesOf_facts : ∀ (tr : List GEvent) (ran done : List Nat),
    validFrom ran done tr = true →
    (∀ i ∈ completesOf tr, i ∉ done) ∧ (completesOf tr).Nodup ∧
    (∀ i ∈ completesOf tr, i ∈ ran ∨ i ∈ runsOf tr) := by
  intro tr
  induction tr with
  | nil => intro ran done _; simp [completesOf]
  | cons ev tr ih =>
    intro ran done hv
    cases ev with
    | run i =>
      simp only [validFrom, Bool.and_eq_true, Bool.not_eq_true'] at hv
      obtain ⟨_, hv⟩ := hv
      obtain ⟨hd, hnd, hm⟩ := ih (i :: ran) done hv
      refine ⟨hd, hnd, ?_⟩
      intro j hj
      rcases hm j hj with hr | hr
      · simp only [List.mem_cons] at hr
        rcases hr with rfl | hr
        · right; simp [runsOf]
        · left; exact hr
      · right; simp [runsOf, hr]
    | complete i res =>
      simp only [validFrom, Bool.and_eq_true, Bool.not_eq_true'] at hv
      obtain ⟨⟨hran, hdone⟩, hv⟩ := hv
      obtain ⟨hd, hnd, hm⟩ := ih ran (i :: done) hv
      refine ⟨?_, ?_, ?_⟩
      · intro j hj
        simp only [completesOf, List.mem_cons] at hj
        rcases hj with rfl | hj
        · simpa using hdone
        · have := hd j hj
          simp only [List.mem_cons] at this
          tauto
      · simp only [completesOf, List.nodup_cons]
        refine ⟨fun hin => ?_, hnd⟩
        have := hd i hin
        simp at this
      · intro j hj
        simp only [completesOf, List.mem_cons] at hj
        rcases hj with rfl | hj
        · left; simpa using hran
        · simpa [completesOf] using hm j hj

theorem nodup_subset_length {l₁ l₂ : List Nat} (d : l₁.Nodup) (s : ∀ i ∈ l₁, i ∈ l₂) :
    l₁.length ≤ l₂.length := by
  calc l₁.length = l₁.toFinset.card := (List.toFinset_card_of_nodup d).symm
    _ ≤ l₂.toFinset.card := Finset.card_le_card (fun i hi => by
        rw [List.mem_toFinset] at hi ⊢
        exact s i hi)
    _ ≤ l₂.length := l₂.toFinset_card_le

theorem counter_zero_iff (tr : List GEvent) (h : ValidTrace tr) :
    (runsOf tr).length = (completesOf tr).length ↔
      ∀ i ∈ runsOf tr, i ∈ completesOf tr := by
  obtain ⟨-, hrnd⟩ := runsOf_facts tr [] [] h
  obtain ⟨-, hcnd, hcm⟩ := completesOf_facts tr [] [] h
  have hsub : ∀ i ∈ completesOf tr, i ∈ runsOf tr := by
    intro i hi
    rcases hcm i hi with hc | hc
    · simp at hc
    · exact hc
  constructor
  · intro hlen i hi
    have hfs : (completesOf tr).toFinset = (runsOf tr).toFinset := by
      apply Finset.eq_of_subset_of_card_le
      · intro j hj
        rw [List.mem_toFinset] at hj ⊢
        exact hsub j hj
      · rw [List.toFinset_card_of_nodup hrnd, List.toFinset_card_of_nodup hcnd, hlen]
    have : i ∈ (completesOf tr).toFinset := by
      rw [hfs, List.mem_toFinset]; exact hi
    rwa [List.mem_toFinset] at this
  · intro hall
    exact le_antisymm (nodup_subset_length hrnd hall) (nodup_subset_length hcnd hsub)

end task_group

/-- C5: along every valid task-group trace the outstanding counter equals
the number of forked tasks minus the number of completed wrappers — it is
incremented only by `run` events and decremented only by completion events —
so it is never negative, and it is zero exactly when every task forked on
the group has finished executing. -/
theorem task_group_counter_invariant (tr : List GEvent)
    (h : task_group.ValidTrace tr) :
    (task_group.groupAfter tr).counter =
      ((task_group.runsOf tr).length : Int) - (task_group.completesOf tr).length ∧
    0 ≤ (task_group.groupAfter tr).counter ∧
    ((task_group.groupAfter tr).counter = 0 ↔
      ∀ i ∈ task_group.runsOf tr, i ∈ task_group.completesOf tr) := by
  rw [task_group.groupAfter_eq]
  obtain ⟨-, hrnd⟩ := task_group.runsOf_facts tr [] [] h
  obtain ⟨-, hcnd, hcm⟩ := task_group.completesOf_facts tr [] [] h
  have hsub : ∀ i ∈ task_group.completesOf tr, i ∈ task_group.runsOf tr := by
    intro i hi
    rcases hcm i hi with hc | hc
    · simp at hc
    · exact hc
  have hle := task_group.nodup_subset_length hcnd hsub
  refine ⟨rfl, by simp; omega, ?_⟩
  rw [show (((task_group.runsOf tr).length : Int) -
      (task_group.completesOf tr).length = 0) ↔
      ((task_group.runsOf tr).length = (task_group.completesOf tr).length) by omega]
  exact task_group.counter_zero_iff tr h

/-- Witness for C5 at a concrete valid trace: one task forked and
completed. -/
theorem task_group_counter_invariant_witness :
    0 ≤ (task_group.groupAfter [GEvent.run 0, GEvent.complete 0 none]).counter :=
  (task_group_counter_invariant [GEvent.run 0, GEvent.complete 0 none] (by rfl)).2.1

/-- C3: when `wait()` returns on a valid trace (the outstanding counter has
reached zero), every task forked on the group before the wait has completed
(its wrapper has executed, so its side effects are those of a finished
task), and the group handed back by `wait` is reset — counter zero and no
recorded error — so it may be reused for a new batch of `run` calls. -/
theorem task_group_wait_drains (tr : List GEvent)
    (h : task_group.ValidTrace tr)
    (hz : (task_group.groupAfter tr).counter = 0) :
    (∀ i ∈ task_group.runsOf tr, i ∈ task_group.completesOf tr) ∧
    (task_group.waitResult (task_group.groupAfter tr)).2.counter = 0 ∧
    (task_group.waitResult (task_group.groupAfter tr)).2.err = none := by
  refine ⟨?_, ?_, ?_⟩
  · exact ((task_group_counter_invariant tr h).2.2).1 hz
  · simp [task_group.waitResult, hz]
  · simp [task_group.waitResult]

/-- Witness for C3 at a concrete valid drained trace. -/
theorem task_group_wait_drains_witness :
    (task_group.waitResult
      (task_group.groupAfter [GEvent.run 0, GEvent.complete 0 none])).2.counter = 0 :=
  (task_group_wait_drains [GEvent.run 0, GEvent.complete 0 none]
    (by rfl) (by rfl)).2.1

/-- C4: in a group whose tasks raise errors, the recorded error is the first
one in completion order — later errors are discarded — and the matching
`wait()` re-raises exactly that one error to the caller and resets the
group; all tasks of the group (in particular the non-raising ones) still run
to completion; and a separate group none of whose tasks raised an error is
untouched: its `wait()` returns success. -/
theorem task_group_error_first_wins (tr tr2 : List GEvent) (e : Nat)
    (h : task_group.ValidTrace tr)
    (hz : (task_group.groupAfter tr).counter = 0)
    (he : (task_group.errorsOf tr).head? = some e)
    (h2 : task_group.ValidTrace tr2)
    (he2 : task_group.errorsOf tr2 = []) :
    (task_group.waitResult (task_group.groupAfter tr)).1 = Except.error e ∧
    (task_group.waitResult (task_group.groupAfter tr)).2.err = none ∧
    (∀ i ∈ task_group.runsOf tr, i ∈ task_group.completesOf tr) ∧
    (task_group.waitResult (task_group.groupAfter tr2)).1 = Except.ok () := by
  refine ⟨?_, ?_, ?_, ?_⟩
  · rw [task_group.groupAfter_eq] at *
    simp [task_group.waitResult, he]
  · simp [task_group.waitResult]
  · exact ((task_group_counter_invariant tr h).2.2).1 hz
  · rw [task_group.groupAfter_eq]
    simp [task_group.waitResult, he2]

/-- Witness for C4 at concrete traces: a group whose two tasks raise errors
7 then 9 surfaces exactly error 7 from `wait`, while an error-free group's
`wait` succeeds. -/
theorem task_group_error_first_wins_witness :
    (task_group.waitResult (task_group.groupAfter
      [GEvent.run 0, GEvent.run 1, GEvent.complete 0 (some 7),
       GEvent.complete 1 (some 9)])).1 = Except.error 7 :=
  (task_group_error_first_wins
    [GEvent.run 0, GEvent.run 1, GEvent.complete 0 (some 7), GEvent.complete 1 (some 9)]
    [GEvent.run 0, GEvent.complete 0 none] 7
    (by rfl) (by rfl) (by rfl) (by rfl) (by rfl)).1

/-! ## Theorems: scheduler transition system -/

namespace scheduler

theorem sizeW_pfor (ws : List Work) :
    sizeW (Work.pfor ws) = 1 + (ws.map sizeW).sum := by
  induction ws with
  | nil => simp [sizeW]
  | cons w ws ih => simp [sizeW, ih]; ring

theorem decFrame_fid (p : Nat) (f : Frame) : (decFrame p f).fid = f.fid := by
  rw [decFrame]; split <;> rfl

theorem decFrame_parent (p : Nat) (f : Frame) : (decFrame p f).parent = f.parent := by
  rw [decFrame]; split <;> rfl

theorem set_decomp {α : Type} :
    ∀ (L : List α) (w : Nat) (x y : α), L.get? w = some x →
      ∃ A B, L = A ++ x :: B ∧ L.set w y = A ++ y :: B := by
  intro L
  induction L with
  | nil => intro w x y h; simp at h
  | cons z L ih =>
    intro w x y h
    cases w with
    | zero =>
      simp only [List.get?] at h
      injection h with h
      exact ⟨[], L, by simp [h], by simp [h]⟩
    | succ w =>
      simp only [List.get?] at h
      obtain ⟨A, B, h1, h2⟩ := ih w x y h
      exact ⟨z :: A, B, by simp [h1], by simp [h2]⟩

theorem dec_pend (p : Nat) (s : SState) : (dec p s).pend = s.pend := by
  rw [dec]; split <;> rfl

theorem dec_next (p : Nat) (s : SState) : (dec p s).next = s.next := by
  rw [dec]; split <;> rfl

theorem dec_root_zero (s : SState) : (dec 0 s).root = s.root - 1 := by
  rw [dec]; simp

theorem dec_root_ne (p : Nat) (s : SState) (hp : p ≠ 0) : (dec p s).root = s.root := by
  rw [dec, if_neg hp]

theorem dec_wstacks_zero (s : SState) : (dec 0 s).wstacks = s.wstacks := by
  rw [dec]; simp

theorem dec_wstacks_ne (p : Nat) (s : SState) (hp : p ≠ 0) :
    (dec p s).wstacks = s.wstacks.map (List.map (decFrame p)) := by
  rw [dec, if_neg hp]

theorem allFrames_dec_zero (s : SState) : allFrames (dec 0 s) = allFrames s := by
  rw [allFrames, dec_wstacks_zero, allFrames]

theorem allFrames_dec_ne (p : Nat) (s : SState) (hp : p ≠ 0) :
    allFrames (dec p s) = (allFrames s).map (decFrame p) := by
  rw [allFrames, dec_wstacks_ne p s hp, allFrames, List.map_flatten]

theorem countP_parent_decFrame (p x : Nat) (fs : List Frame) :
    (fs.map (decFrame p)).countP (fun g => g.parent == x) =
      fs.countP (fun g => g.parent == x) := by
  rw [List.countP_map]
  congr 1
  funext g
  simp [Function.comp, decFrame_parent]

theorem map_fid_decFrame (p : Nat) (fs : List Frame) :
    (fs.map (decFrame p)).map Frame.fid = fs.map Frame.fid := by
  rw [List.map_map]
  congr 1
  funext g
  simp [Function.comp, decFrame_fid]

theorem mem_map_decFrame {p : Nat} {fs : List Frame} {f : Frame}
    (h : f ∈ fs.map (decFrame p)) : ∃ g ∈ fs, f = decFrame p g := by
  obtain ⟨g, hg, rfl⟩ := List.mem_map.1 h
  exact ⟨g, hg, rfl⟩

theorem allFrames_length_dec (p : Nat) (s : SState) :
    (allFrames (dec p s)).length = (allFrames s).length := by
  by_cases hp0 : p = 0
  · subst hp0; rw [allFrames_dec_zero]
  · rw [allFrames_dec_ne _ _ hp0, List.length_map]

theorem smeasure_step {s t : SState} (h : Step s t) : smeasure t < smeasure s := by
  cases h with
  | atom l r p h0 hp =>
    have hf := allFrames_length_dec p { s with pend := l ++ r }
    rw [smeasure, smeasure, dec_pend, hf]
    have hA : allFrames { s with pend := l ++ r } = allFrames s := rfl
    rw [hA, hp]
    simp [sizeW]
  | pfor l r p ws w stk hp hw =>
    obtain ⟨A, B, hL, hLs⟩ := set_decomp s.wstacks w stk (⟨s.next, p, ws.length⟩ :: stk) hw
    rw [smeasure, smeasure]
    simp only [allFrames]
    rw [hLs, hp, hL]
    simp [sizeW_pfor, Function.comp]
    rw [show ((fun t => sizeW t.work) ∘ fun wk => (⟨s.next, wk⟩ : PTask)) = sizeW from
      funext fun wk => rfl]
    omega
  | pop w f rest hw hc =>
    obtain ⟨A, B, hL, hLs⟩ := set_decomp s.wstacks w (f :: rest) rest hw
    have hf := allFrames_length_dec f.parent { s with wstacks := s.wstacks.set w rest }
    rw [smeasure, smeasure, dec_pend, hf]
    have h1 : allFrames { s with wstacks := s.wstacks.set w rest } =
        (A ++ rest :: B).flatten := by
      rw [allFrames]
      simp only
      rw [hLs]
    rw [h1]
    conv_rhs => rw [allFrames, hL]
    simp

theorem countP_middle {α : Type} (q : α → Bool) (l r : List α) (t : α) :
    (l ++ t :: r).countP q = (l ++ r).countP q + (if q t then 1 else 0) := by
  simp [List.countP_append, List.countP_cons]
  omega

theorem mem_middle {α : Type} {x t : α} {l r : List α} (h : x ∈ l ++ r) :
    x ∈ l ++ t :: r := by
  rcases List.mem_append.1 h with h | h
  · exact List.mem_append.2 (Or.inl h)
  · exact List.mem_append.2 (Or.inr (List.mem_cons_of_mem _ h))

theorem inv_atom {s : SState} {l r : List PTask} {p : Nat}
    (hInv : Inv s) (hp : s.pend = l ++ ⟨p, Work.atom⟩ :: r) :
    Inv (dec p { s with pend := l ++ r }) := by
  have hcnt : ∀ x : Nat, s.pend.countP (fun u => u.parent == x) =
      (l ++ r).countP (fun u => u.parent == x) + (if p = x then 1 else 0) := by
    intro x
    rw [hp, countP_middle]
    congr 1
    by_cases hx : p = x <;> simp [hx]
  have hpmem : (⟨p, Work.atom⟩ : PTask) ∈ s.pend := by
    rw [hp]
    exact List.mem_append.2 (Or.inr (List.mem_cons_self _ _))
  by_cases hp0 : p = 0
  · subst hp0
    refine ⟨?_, ?_, ?_, ?_, ?_, ?_, ?_, ?_⟩
    · rw [dec, if_pos rfl]
      exact hInv.nworkers
    · rw [dec, if_pos rfl]
      exact hInv.next_pos
    · rw [dec, if_pos rfl]
      intro f hf
      exact hInv.frame_ids f hf
    · rw [dec, if_pos rfl]
      intro f hf
      exact hInv.frame_parent_live f hf
    · rw [dec, if_pos rfl]
      intro u hu
      exact hInv.pend_parent u (hp ▸ mem_middle hu)
    · rw [dec, if_pos rfl]
      intro stk hstk
      exact hInv.stack_sorted stk hstk
    · rw [dec, if_pos rfl]
      intro f hf
      have hf' : f ∈ allFrames s := hf
      have h1 := hInv.counter_eq f hf'
      have h2 := hcnt f.fid
      have h3 : (0 < f.fid) := (hInv.frame_ids f hf').1
      rw [if_neg (by omega)] at h2
      show f.counter = (l ++ r).countP (fun t => t.parent == f.fid) +
        (allFrames s).countP (fun g => g.parent == f.fid)
      omega
    · rw [dec, if_pos rfl]
      have h1 := hInv.root_eq
      have h2 := hcnt 0
      rw [if_pos rfl] at h2
      show s.root - 1 = (l ++ r).countP (fun t => t.parent == 0) +
        (allFrames s).countP (fun g => g.parent == 0)
      omega
  · have hws := dec_wstacks_ne p { s with pend := l ++ r } hp0
    have hAF : allFrames (dec p { s with pend := l ++ r }) =
        (allFrames s).map (decFrame p) :=
      allFrames_dec_ne p _ hp0
    refine ⟨?_, ?_, ?_, ?_, ?_, ?_, ?_, ?_⟩
    · rw [hws, List.length_map]
      exact hInv.nworkers
    · rw [dec_next]
      exact hInv.next_pos
    · rw [hAF, dec_next]
      intro f hf
      obtain ⟨g, hg, rfl⟩ := mem_map_decFrame hf
      rw [decFrame_fid, decFrame_parent]
      exact hInv.frame_ids g hg
    · rw [hAF]
      intro f hf
      obtain ⟨g, hg, rfl⟩ := mem_map_decFrame hf
      rw [decFrame_parent]
      rcases hInv.frame_parent_live g hg with h | ⟨h, hh, hfid⟩
      · exact Or.inl h
      · exact Or.inr ⟨decFrame p h, List.mem_map_of_mem _ hh, by rw [decFrame_fid, hfid]⟩
    · rw [hAF, dec_next, dec_pend]
      intro u hu
      have h1 := hInv.pend_parent u (hp ▸ mem_middle hu)
      rcases h1 with ⟨h2, h3 | ⟨g, hg, hfid⟩⟩
      · exact ⟨h2, Or.inl h3⟩
      · exact ⟨h2, Or.inr ⟨decFrame p g, List.mem_map_of_mem _ hg,
          by rw [decFrame_fid, hfid]⟩⟩
    · rw [hws]
      intro stk hstk
      obtain ⟨stk0, hstk0, rfl⟩ := List.mem_map.1 hstk
      exact (hInv.stack_sorted stk0 hstk0).map (decFrame p)
        (fun a b hab => by rw [decFrame_fid, decFrame_fid]; exact hab)
    · rw [hAF]
      intro f hf
      obtain ⟨g, hg, rfl⟩ := mem_map_decFrame hf
      have h1 := hInv.counter_eq g hg
      have h2 := hcnt g.fid
      rw [countP_parent_decFrame, decFrame_fid, dec_pend]
      show (decFrame p g).counter = (l ++ r).countP (fun t => t.parent == g.fid) +
        (allFrames s).countP (fun h => h.parent == g.fid)
      by_cases hgp : g.fid = p
      · rw [if_pos hgp.symm] at h2
        have hpos : 0 < s.pend.countP (fun u => u.parent == g.fid) := by
          rw [List.countP_pos_iff]
          exact ⟨⟨p, Work.atom⟩, hpmem, by simp [hgp]⟩
        have hcn : (decFrame p g).counter = g.counter - 1 := by
          rw [decFrame, if_pos hgp]
        rw [hcn]
        omega
      · rw [if_neg (fun hx => hgp hx.symm)] at h2
        have hcn : decFrame p g = g := by
          rw [decFrame, if_neg hgp]
        rw [hcn]
        omega
    · rw [hAF, dec_root_ne _ _ hp0, dec_pend, countP_parent_decFrame]
      have h1 := hInv.root_eq
      have h2 := hcnt 0
      rw [if_neg hp0] at h2
      show s.root = (l ++ r).countP (fun t => t.parent == 0) +
        (allFrames s).countP (fun g => g.parent == 0)
      omega

theorem inv_pfor {s : SState} {l r : List PTask} {p : Nat} {ws : List Work}
    {w : Nat} {stk : List Frame}
    (hInv : Inv s) (hp : s.pend = l ++ ⟨p, Work.pfor ws⟩ :: r)
    (hw : s.wstacks.get? w = some stk) :
    Inv { pend := (l ++ r) ++ ws.map (fun wk => ⟨s.next, wk⟩),
          wstacks := s.wstacks.set w (⟨s.next, p, ws.length⟩ :: stk),
          root := s.root, next := s.next + 1 } := by
  obtain ⟨A, B, hL, hLs⟩ := set_decomp s.wstacks w stk (⟨s.next, p, ws.length⟩ :: stk) hw
  have hpmem : (⟨p, Work.pfor ws⟩ : PTask) ∈ s.pend := by
    rw [hp]
    exact List.mem_append.2 (Or.inr (List.mem_cons_self _ _))
  have hplt1 : p < s.next := (hInv.pend_parent _ hpmem).1
  have hplt2 : p = 0 ∨ ∃ g ∈ allFrames s, g.fid = p := (hInv.pend_parent _ hpmem).2
  have hAFs : allFrames s = A.flatten ++ (stk ++ B.flatten) := by
    rw [allFrames, hL]
    simp
  have hAFt : (s.wstacks.set w (⟨s.next, p, ws.length⟩ :: stk)).flatten =
      A.flatten ++ ((⟨s.next, p, ws.length⟩ :: stk) ++ B.flatten) := by
    rw [hLs]
    simp
  have hsub : ∀ x, x ∈ allFrames s →
      x ∈ (s.wstacks.set w (⟨s.next, p, ws.length⟩ :: stk)).flatten := by
    intro x hx
    rw [hAFs] at hx
    rw [hAFt]
    rcases List.mem_append.1 hx with hx | hx
    · exact List.mem_append.2 (Or.inl hx)
    · rcases List.mem_append.1 hx with hx | hx
      · exact List.mem_append.2 (Or.inr (List.mem_append.2
          (Or.inl (List.mem_cons_of_mem _ hx))))
      · exact List.mem_append.2 (Or.inr (List.mem_append.2 (Or.inr hx)))
  have hmemt : ∀ x, x ∈ (s.wstacks.set w (⟨s.next, p, ws.length⟩ :: stk)).flatten →
      x = ⟨s.next, p, ws.length⟩ ∨ x ∈ allFrames s := by
    intro x hx
    rw [hAFt] at hx
    rw [hAFs]
    rcases List.mem_append.1 hx with hx | hx
    · exact Or.inr (List.mem_append.2 (Or.inl hx))
    · rcases List.mem_append.1 hx with hx | hx
      · rcases List.mem_cons.1 hx with hx | hx
        · exact Or.inl hx
        · exact Or.inr (List.mem_append.2 (Or.inr (List.mem_append.2 (Or.inl hx))))
      · exact Or.inr (List.mem_append.2 (Or.inr (List.mem_append.2 (Or.inr hx))))
  have hcnt : ∀ x : Nat, s.pend.countP (fun u => u.parent == x) =
      (l ++ r).countP (fun u => u.parent == x) + (if p = x then 1 else 0) := by
    intro x
    rw [hp, countP_middle]
    congr 1
    by_cases hx : p = x <;> simp [hx]
  have hnew : ∀ x : Nat,
      (ws.map (fun wk => (⟨s.next, wk⟩ : PTask))).countP (fun u => u.parent == x) =
        if s.next = x then ws.length else 0 := by
    intro x
    rw [List.countP_map]
    by_cases hx : s.next = x
    · subst hx
      simp [Function.comp]
    · simp [Function.comp, hx]
  have hcntF : ∀ x : Nat,
      ((s.wstacks.set w (⟨s.next, p, ws.length⟩ :: stk)).flatten).countP
          (fun g => g.parent == x) =
        (allFrames s).countP (fun g => g.parent == x) + (if p = x then 1 else 0) := by
    intro x
    rw [hAFt, hAFs]
    simp only [List.countP_append, List.countP_cons]
    by_cases hx : p = x <;> simp [hx] <;> omega
  have hfid_lt : ∀ f, f ∈ allFrames s → f.fid < s.next := fun f hf =>
    (hInv.frame_ids f hf).2.1
  have hold_pend : ∀ x, x ∈ l ++ r → x ∈ s.pend := by
    intro x hx
    rw [hp]
    exact mem_middle hx
  refine ⟨?_, ?_, ?_, ?_, ?_, ?_, ?_, ?_⟩
  · show 0 < (s.wstacks.set w _).length
    rw [List.length_set]
    exact hInv.nworkers
  · show 0 < s.next + 1
    omega
  · intro f hf
    rcases hmemt f hf with rfl | hf'
    · refine ⟨hInv.next_pos, by show s.next < s.next + 1; omega, ?_⟩
      show p < s.next
      exact hplt1
    · obtain ⟨h1, h2, h3⟩ := hInv.frame_ids f hf'
      exact ⟨h1, by show f.fid < s.next + 1; omega, h3⟩
  · intro f hf
    rcases hmemt f hf with rfl | hf'
    · rcases hplt2 with h | ⟨g, hg, hfid⟩
      · exact Or.inl h
      · exact Or.inr ⟨g, hsub g hg, hfid⟩
    · rcases hInv.frame_parent_live f hf' with h | ⟨g, hg, hfid⟩
      · exact Or.inl h
      · exact Or.inr ⟨g, hsub g hg, hfid⟩
  · intro u hu
    rcases List.mem_append.1 hu with hu | hu
    · obtain ⟨h1, h2⟩ := hInv.pend_parent u (hold_pend u hu)
      refine ⟨by show u.parent < s.next + 1; omega, ?_⟩
      rcases h2 with h | ⟨g, hg, hfid⟩
      · exact Or.inl h
      · exact Or.inr ⟨g, hsub g hg, hfid⟩
    · obtain ⟨wk, hwk, rfl⟩ := List.mem_map.1 hu
      refine ⟨by show s.next < s.next + 1; omega, Or.inr ⟨⟨s.next, p, ws.length⟩, ?_, rfl⟩⟩
      show (⟨s.next, p, ws.length⟩ : Frame) ∈
        (s.wstacks.set w (⟨s.next, p, ws.length⟩ :: stk)).flatten
      rw [hAFt]
      exact List.mem_append.2 (Or.inr (List.mem_append.2
        (Or.inl (List.mem_cons_self _ _))))
  · intro stk' hstk'
    have hstk'' : stk' ∈ A ++ (⟨s.next, p, ws.length⟩ :: stk) :: B := by
      rw [← hLs]
      exact hstk'
    have holdmem : ∀ y, y ∈ A ++ stk :: B → y ∈ s.wstacks := by
      intro y hy
      rw [hL]
      exact hy
    rcases List.mem_append.1 hstk'' with hx | hx
    · exact hInv.stack_sorted stk' (holdmem stk' (List.mem_append.2 (Or.inl hx)))
    · rcases List.mem_cons.1 hx with rfl | hx
      · rw [List.pairwise_cons]
        refine ⟨?_, hInv.stack_sorted stk
          (holdmem stk (List.mem_append.2 (Or.inr (List.mem_cons_self _ _))))⟩
        intro b hb
        show b.fid < s.next
        refine hfid_lt b ?_
        rw [hAFs]
        exact List.mem_append.2 (Or.inr (List.mem_append.2 (Or.inl hb)))
      · exact hInv.stack_sorted stk'
          (holdmem stk' (List.mem_append.2 (Or.inr (List.mem_cons_of_mem _ hx))))
  · intro f hf
    have hcp := hcntF f.fid
    rcases hmemt f hf with heq | hf'
    · have hpz : (l ++ r).countP (fun u => u.parent == s.next) = 0 := by
        rw [List.countP_eq_zero]
        intro u hu
        have := (hInv.pend_parent u (hold_pend u hu)).1
        simp
        omega
      have hfz : (allFrames s).countP (fun g => g.parent == s.next) = 0 := by
        rw [List.countP_eq_zero]
        intro g hg
        have h1 := (hInv.frame_ids g hg).2.1
        have h2 := (hInv.frame_ids g hg).2.2
        simp
        omega
      have hfidf : f.fid = s.next := by rw [heq]
      have hctf : f.counter = ws.length := by rw [heq]
      rw [hfidf, hctf]
      show ws.length = ((l ++ r) ++ ws.map (fun wk => (⟨s.next, wk⟩ : PTask))).countP
          (fun t => t.parent == s.next) +
        ((s.wstacks.set w (⟨s.next, p, ws.length⟩ :: stk)).flatten).countP
          (fun g => g.parent == s.next)
      rw [List.countP_append, hnew, if_pos rfl, hpz, hcntF, hfz,
        if_neg (show ¬(p = s.next) by omega)]
      omega
    · have h1 := hInv.counter_eq f hf'
      have h2 := hcnt f.fid
      have h3 := hnew f.fid
      have h4 : f.fid < s.next := hfid_lt f hf'
      rw [if_neg (by omega)] at h3
      show f.counter = ((l ++ r) ++ ws.map (fun wk => (⟨s.next, wk⟩ : PTask))).countP
          (fun t => t.parent == f.fid) +
        ((s.wstacks.set w (⟨s.next, p, ws.length⟩ :: stk)).flatten).countP
          (fun g => g.parent == f.fid)
      rw [List.countP_append, h3, hcntF]
      by_cases hpf : p = f.fid
      · rw [if_pos hpf] at h2 ⊢
        have hpos : 0 < s.pend.countP (fun u => u.parent == f.fid) := by
          rw [List.countP_pos_iff]
          exact ⟨⟨p, Work.pfor ws⟩, hpmem, by simp [hpf]⟩
        omega
      · rw [if_neg hpf] at h2 ⊢
        omega
  · have h1 := hInv.root_eq
    have h2 := hcnt 0
    have h3 := hnew 0
    have h4 := hcntF 0
    rw [if_neg (by have := hInv.next_pos; omega)] at h3
    show s.root = ((l ++ r) ++ ws.map (fun wk => (⟨s.next, wk⟩ : PTask))).countP
        (fun t => t.parent == 0) +
      ((s.wstacks.set w (⟨s.next, p, ws.length⟩ :: stk)).flatten).countP
        (fun g => g.parent == 0)
    rw [List.countP_append, h3, h4]
    by_cases hp0 : p = 0
    · rw [if_pos hp0] at h2 ⊢
      have hpos : 0 < s.pend.countP (fun u => u.parent == 0) := by
        rw [List.countP_pos_iff]
        exact ⟨⟨p, Work.pfor ws⟩, hpmem, by simp [hp0]⟩
      omega
    · rw [if_neg hp0] at h2 ⊢
      omega

theorem inv_pop {s : SState} {w : Nat} {f : Frame} {rest : List Frame}
    (hInv : Inv s) (hw : s.wstacks.get? w = some (f :: rest))
    (hc : f.counter = 0) :
    Inv (dec f.parent { s with wstacks := s.wstacks.set w rest }) := by
  obtain ⟨A, B, hL, hLs⟩ := set_decomp s.wstacks w (f :: rest) rest hw
  have hAFs : allFrames s = A.flatten ++ ((f :: rest) ++ B.flatten) := by
    rw [allFrames, hL]
    simp
  have hfmem : f ∈ allFrames s := by
    rw [hAFs]
    exact List.mem_append.2 (Or.inr (List.mem_append.2 (Or.inl (List.mem_cons_self _ _))))
  have hce := hInv.counter_eq f hfmem
  have hpz : s.pend.countP (fun u => u.parent == f.fid) = 0 := by omega
  have hfz : (allFrames s).countP (fun g => g.parent == f.fid) = 0 := by omega
  have hAF1 : (s.wstacks.set w rest).flatten = A.flatten ++ (rest ++ B.flatten) := by
    rw [hLs]
    simp
  have hmem1 : ∀ x, x ∈ (s.wstacks.set w rest).flatten → x ∈ allFrames s := by
    intro x hx
    rw [hAF1] at hx
    rw [hAFs]
    rcases List.mem_append.1 hx with hx | hx
    · exact List.mem_append.2 (Or.inl hx)
    · rcases List.mem_append.1 hx with hx | hx
      · exact List.mem_append.2 (Or.inr (List.mem_append.2
          (Or.inl (List.mem_cons_of_mem _ hx))))
      · exact List.mem_append.2 (Or.inr (List.mem_append.2 (Or.inr hx)))
  have hmem2 : ∀ x, x ∈ allFrames s → x.fid ≠ f.fid →
      x ∈ (s.wstacks.set w rest).flatten := by
    intro x hx hne
    rw [hAFs] at hx
    rw [hAF1]
    rcases List.mem_append.1 hx with hx | hx
    · exact List.mem_append.2 (Or.inl hx)
    · rcases List.mem_append.1 hx with hx | hx
      · rcases List.mem_cons.1 hx with rfl | hx
        · exact absurd rfl hne
        · exact List.mem_append.2 (Or.inr (List.mem_append.2 (Or.inl hx)))
      · exact List.mem_append.2 (Or.inr (List.mem_append.2 (Or.inr hx)))
  have hnochildF : ∀ g, g ∈ allFrames s → g.parent ≠ f.fid := by
    intro g hg
    have := List.countP_eq_zero.1 hfz g hg
    simpa using this
  have hnochildP : ∀ t, t ∈ s.pend → t.parent ≠ f.fid := by
    intro t ht
    have := List.countP_eq_zero.1 hpz t ht
    simpa using this
  have hwitness : ∀ (x : Nat), x ≠ f.fid → (∃ g ∈ allFrames s, g.fid = x) →
      ∃ g ∈ (s.wstacks.set w rest).flatten, g.fid = x := by
    intro x hne ⟨g, hg, hfid⟩
    exact ⟨g, hmem2 g hg (by rw [hfid]; exact hne), hfid⟩
  have hcnt1 : ∀ x : Nat, (allFrames s).countP (fun g => g.parent == x) =
      ((s.wstacks.set w rest).flatten).countP (fun g => g.parent == x) +
        (if f.parent = x then 1 else 0) := by
    intro x
    rw [hAFs, hAF1]
    simp only [List.countP_append, List.countP_cons]
    by_cases hx : f.parent = x <;> simp [hx] <;> omega
  have hsorted1 : ∀ stk', stk' ∈ s.wstacks.set w rest →
      stk'.Pairwise (fun a b => b.fid < a.fid) := by
    intro stk' hstk'
    have hstk'' : stk' ∈ A ++ rest :: B := by
      rw [← hLs]
      exact hstk'
    have holdmem : ∀ y, y ∈ A ++ (f :: rest) :: B → y ∈ s.wstacks := by
      intro y hy
      rw [hL]
      exact hy
    rcases List.mem_append.1 hstk'' with hx | hx
    · exact hInv.stack_sorted stk' (holdmem stk' (List.mem_append.2 (Or.inl hx)))
    · rcases List.mem_cons.1 hx with hx | hx
      · rw [hx]
        exact (List.pairwise_cons.1 (hInv.stack_sorted (f :: rest)
          (holdmem _ (List.mem_append.2 (Or.inr (List.mem_cons_self _ _)))))).2
      · exact hInv.stack_sorted stk'
          (holdmem stk' (List.mem_append.2 (Or.inr (List.mem_cons_of_mem _ hx))))
  by_cases hp0 : f.parent = 0
  · rw [hp0, dec, if_pos rfl]
    refine ⟨?_, ?_, ?_, ?_, ?_, ?_, ?_, ?_⟩
    · show 0 < (s.wstacks.set w rest).length
      rw [List.length_set]
      exact hInv.nworkers
    · exact hInv.next_pos
    · intro g hg
      exact hInv.frame_ids g (hmem1 g hg)
    · intro g hg
      rcases hInv.frame_parent_live g (hmem1 g hg) with h | hex
      · exact Or.inl h
      · exact Or.inr (hwitness g.parent (hnochildF g (hmem1 g hg)) hex)
    · intro u hu
      obtain ⟨h1, h2⟩ := hInv.pend_parent u hu
      refine ⟨h1, ?_⟩
      rcases h2 with h | hex
      · exact Or.inl h
      · exact Or.inr (hwitness u.parent (hnochildP u hu) hex)
    · exact hsorted1
    · intro g hg
      have h1 := hInv.counter_eq g (hmem1 g hg)
      have h2 := hcnt1 g.fid
      have h3 : 0 < g.fid := (hInv.frame_ids g (hmem1 g hg)).1
      rw [if_neg (by omega)] at h2
      show g.counter = s.pend.countP (fun t => t.parent == g.fid) +
        ((s.wstacks.set w rest).flatten).countP (fun x => x.parent == g.fid)
      omega
    · have h1 := hInv.root_eq
      have h2 := hcnt1 0
      rw [if_pos hp0] at h2
      show s.root - 1 = s.pend.countP (fun t => t.parent == 0) +
        ((s.wstacks.set w rest).flatten).countP (fun g => g.parent == 0)
      omega
  · have hws := dec_wstacks_ne f.parent { s with wstacks := s.wstacks.set w rest } hp0
    have hAF : allFrames (dec f.parent { s with wstacks := s.wstacks.set w rest }) =
        ((s.wstacks.set w rest).flatten).map (decFrame f.parent) := by
      rw [allFrames_dec_ne _ _ hp0]
      rfl
    refine ⟨?_, ?_, ?_, ?_, ?_, ?_, ?_, ?_⟩
    · rw [hws, List.length_map, List.length_set]
      exact hInv.nworkers
    · rw [dec_next]
      exact hInv.next_pos
    · rw [hAF, dec_next]
      intro g hg
      obtain ⟨g0, hg0, rfl⟩ := mem_map_decFrame hg
      rw [decFrame_fid, decFrame_parent]
      exact hInv.frame_ids g0 (hmem1 g0 hg0)
    · rw [hAF]
      intro g hg
      obtain ⟨g0, hg0, rfl⟩ := mem_map_decFrame hg
      rw [decFrame_parent]
      rcases hInv.frame_parent_live g0 (hmem1 g0 hg0) with h | hex
      · exact Or.inl h
      · obtain ⟨h, hh, hfid⟩ := hwitness g0.parent (hnochildF g0 (hmem1 g0 hg0)) hex
        exact Or.inr ⟨decFrame f.parent h, List.mem_map_of_mem _ hh,
          by rw [decFrame_fid, hfid]⟩
    · rw [hAF, dec_next, dec_pend]
      intro u hu
      obtain ⟨h1, h2⟩ := hInv.pend_parent u hu
      refine ⟨h1, ?_⟩
      rcases h2 with h | hex
      · exact Or.inl h
      · obtain ⟨h, hh, hfid⟩ := hwitness u.parent (hnochildP u hu) hex
        exact Or.inr ⟨decFrame f.parent h, List.mem_map_of_mem _ hh,
          by rw [decFrame_fid, hfid]⟩
    · rw [hws]
      intro stk' hstk'
      obtain ⟨stk0, hstk0, rfl⟩ := List.mem_map.1 hstk'
      exact (hsorted1 stk0 hstk0).map (decFrame f.parent)
        (fun a b hab => by rw [decFrame_fid, decFrame_fid]; exact hab)
    · rw [hAF]
      intro g hg
      obtain ⟨g0, hg0, rfl⟩ := mem_map_decFrame hg
      have h1 := hInv.counter_eq g0 (hmem1 g0 hg0)
      have h2 := hcnt1 g0.fid
      rw [countP_parent_decFrame, decFrame_fid, dec_pend]
      show (decFrame f.parent g0).counter =
        s.pend.countP (fun t => t.parent == g0.fid) +
        ((s.wstacks.set w rest).flatten).countP (fun x => x.parent == g0.fid)
      by_cases hgp : g0.fid = f.parent
      · rw [if_pos hgp.symm] at h2
        have hposF : 0 < (allFrames s).countP (fun x => x.parent == g0.fid) := by
          rw [List.countP_pos_iff]
          exact ⟨f, hfmem, by simp [hgp]⟩
        have hcn : (decFrame f.parent g0).counter = g0.counter - 1 := by
          rw [decFrame, if_pos hgp]
        rw [hcn]
        omega
      · rw [if_neg (fun hx => hgp hx.symm)] at h2
        have hcn : decFrame f.parent g0 = g0 := by
          rw [decFrame, if_neg hgp]
        rw [hcn]
        omega
    · rw [hAF, dec_root_ne _ _ hp0, dec_pend, countP_parent_decFrame]
      have h1 := hInv.root_eq
      have h2 := hcnt1 0
      rw [if_neg hp0] at h2
      show s.root = s.pend.countP (fun t => t.parent == 0) +
        ((s.wstacks.set w rest).flatten).countP (fun g => g.parent == 0)
      omega

theorem inv_step {s t : SState} (hInv : Inv s) (h : Step s t) : Inv t := by
  cases h with
  | atom l r p h0 hp => exact inv_atom hInv hp
  | pfor l r p ws w stk hp hw => exact inv_pfor hInv hp hw
  | pop w f rest hw hc => exact inv_pop hInv hw hc

theorem inv_init (nw : Nat) (w : Work) (h : 0 < nw) : Inv (init nw w) := by
  have hAF : allFrames (init nw w) = [] := by
    rw [allFrames, init, List.eq_nil_iff_forall_not_mem]
    intro x hx
    obtain ⟨l, hl, hxl⟩ := List.mem_flatten.1 hx
    rw [List.eq_of_mem_replicate hl] at hxl
    simp at hxl
  refine ⟨?_, ?_, ?_, ?_, ?_, ?_, ?_, ?_⟩
  · show 0 < (List.replicate nw ([] : List Frame)).length
    rw [List.length_replicate]
    exact h
  · show (0 : Nat) < 1
    omega
  · rw [hAF]
    intro f hf
    simp at hf
  · rw [hAF]
    intro f hf
    simp at hf
  · intro t ht
    have : t = ⟨0, w⟩ := by
      rcases List.mem_cons.1 ht with h | h
      · exact h
      · simp at h
    rw [this]
    exact ⟨by show (0 : Nat) < 1; omega, Or.inl rfl⟩
  · intro stk hstk
    have : stk = [] := List.eq_of_mem_replicate hstk
    rw [this]
    exact List.Pairwise.nil
  · rw [hAF]
    intro f hf
    simp at hf
  · rw [hAF]
    show (1 : Nat) = List.countP (fun t => t.parent == 0) [(⟨0, w⟩ : PTask)] +
      List.countP (fun g => g.parent == 0) ([] : List Frame)
    rfl

theorem inv_reach {nw : Nat} {w : Work} {s : SState} (h : 0 < nw)
    (hr : Reach (init nw w) s) : Inv s := by
  induction hr with
  | refl => exact inv_init nw w h
  | tail h1 h2 ih => exact inv_step ih h2

theorem exists_max_fid :
    ∀ (fs : List Frame), fs ≠ [] → ∃ f ∈ fs, ∀ g ∈ fs, g.fid ≤ f.fid := by
  intro fs
  induction fs with
  | nil => intro h; exact absurd rfl h
  | cons a fs ih =>
    intro _
    by_cases h : fs = []
    · subst h
      refine ⟨a, List.mem_cons_self _ _, ?_⟩
      intro g hg
      rcases List.mem_cons.1 hg with h | h
      · rw [h]
      · simp at h
    · obtain ⟨f, hf, hmax⟩ := ih h
      by_cases hle : a.fid ≤ f.fid
      · refine ⟨f, List.mem_cons_of_mem _ hf, ?_⟩
        intro g hg
        rcases List.mem_cons.1 hg with h | h
        · rw [h]; exact hle
        · exact hmax g h
      · refine ⟨a, List.mem_cons_self _ _, ?_⟩
        intro g hg
        rcases List.mem_cons.1 hg with h | h
        · rw [h]
        · exact le_trans (hmax g h) (by omega)

theorem exists_min_nat :
    ∀ (l : List Nat), l ≠ [] → ∃ m ∈ l, ∀ x ∈ l, m ≤ x := by
  intro l
  induction l with
  | nil => intro h; exact absurd rfl h
  | cons a l ih =>
    intro _
    by_cases h : l = []
    · subst h
      refine ⟨a, List.mem_cons_self _ _, ?_⟩
      intro x hx
      rcases List.mem_cons.1 hx with h | h
      · rw [h]
      · simp at h
    · obtain ⟨m, hm, hmin⟩ := ih h
      by_cases hle : a ≤ m
      · refine ⟨a, List.mem_cons_self _ _, ?_⟩
        intro x hx
        rcases List.mem_cons.1 hx with h | h
        · rw [h]
        · exact le_trans hle (hmin x h)
      · refine ⟨m, List.mem_cons_of_mem _ hm, ?_⟩
        intro x hx
        rcases List.mem_cons.1 hx with h | h
        · rw [h]; omega
        · exact hmin x h

theorem root_pos_of_live {s : SState} (hInv : Inv s)
    (hl : s.pend ≠ [] ∨ allFrames s ≠ []) : 0 < s.root := by
  have hPs : s.pend.map PTask.parent ++ (allFrames s).map Frame.parent ≠ [] := by
    rcases hl with h | h
    · intro hc
      rcases List.append_eq_nil.1 hc with ⟨h1, -⟩
      exact h (List.map_eq_nil_iff.1 h1)
    · intro hc
      rcases List.append_eq_nil.1 hc with ⟨-, h2⟩
      exact h (List.map_eq_nil_iff.1 h2)
  obtain ⟨m, hm, hmin⟩ := exists_min_nat _ hPs
  by_cases hm0 : m = 0
  · subst hm0
    rw [hInv.root_eq]
    rcases List.mem_append.1 hm with h | h
    · obtain ⟨t, ht, htp⟩ := List.mem_map.1 h
      have : 0 < s.pend.countP (fun t => t.parent == 0) := by
        rw [List.countP_pos_iff]
        exact ⟨t, ht, by simp [htp]⟩
      omega
    · obtain ⟨g, hg, hgp⟩ := List.mem_map.1 h
      have : 0 < (allFrames s).countP (fun g => g.parent == 0) := by
        rw [List.countP_pos_iff]
        exact ⟨g, hg, by simp [hgp]⟩
      omega
  · exfalso
    have hex : ∃ g ∈ allFrames s, g.fid = m := by
      rcases List.mem_append.1 hm with h | h
      · obtain ⟨t, ht, htp⟩ := List.mem_map.1 h
        rcases (hInv.pend_parent t ht).2 with h0 | hex
        · exact absurd (htp ▸ h0) hm0
        · exact htp ▸ hex
      · obtain ⟨g, hg, hgp⟩ := List.mem_map.1 h
        rcases hInv.frame_parent_live g hg with h0 | hex
        · exact absurd (hgp ▸ h0) hm0
        · exact hgp ▸ hex
    obtain ⟨g, hg, hgfid⟩ := hex
    have h1 : g.parent < g.fid := (hInv.frame_ids g hg).2.2
    have h2 : m ≤ g.parent := hmin g.parent
      (List.mem_append.2 (Or.inr (List.mem_map_of_mem _ hg)))
    omega

theorem done_state {s : SState} (hInv : Inv s) (hD : s.root = 0) :
    s.pend = [] ∧ allFrames s = [] := by
  by_cases h1 : s.pend = []
  · by_cases h2 : allFrames s = []
    · exact ⟨h1, h2⟩
    · have := root_pos_of_live hInv (Or.inr h2)
      omega
  · have := root_pos_of_live hInv (Or.inl h1)
    omega

theorem progress {s : SState} (hInv : Inv s) (hnd : s.root ≠ 0) :
    ∃ t, Step s t := by
  rcases hpend : s.pend with _ | ⟨⟨pa, wo⟩, rest⟩
  · have hlive : allFrames s ≠ [] := by
      intro hAF
      have hr := hInv.root_eq
      rw [hpend, hAF] at hr
      simp at hr
      exact hnd hr
    obtain ⟨f, hf, hmax⟩ := exists_max_fid (allFrames s) hlive
    obtain ⟨stk, hstkmem, hfstk⟩ := List.mem_flatten.1 hf
    have hsort := hInv.stack_sorted stk hstkmem
    obtain ⟨frest, hfrest⟩ : ∃ frest, stk = f :: frest := by
      cases stk with
      | nil => simp at hfstk
      | cons h0 t0 =>
        rcases List.mem_cons.1 hfstk with hEq | hmem
        · exact ⟨t0, by rw [hEq]⟩
        · have hlt : f.fid < h0.fid := (List.pairwise_cons.1 hsort).1 f hmem
          have hle : h0.fid ≤ f.fid :=
            hmax h0 (List.mem_flatten.2 ⟨h0 :: t0, hstkmem, List.mem_cons_self _ _⟩)
          omega
    have hcz : f.counter = 0 := by
      have h1 := hInv.counter_eq f hf
      have h2 : s.pend.countP (fun t => t.parent == f.fid) = 0 := by
        rw [hpend]
        simp
      have h3 : (allFrames s).countP (fun g => g.parent == f.fid) = 0 := by
        rw [List.countP_eq_zero]
        intro g hg
        have hlt := (hInv.frame_ids g hg).2.2
        have hle := hmax g hg
        simp
        omega
      omega
    rw [hfrest] at hstkmem
    obtain ⟨wi, hwi⟩ := List.get?_of_mem hstkmem
    exact ⟨_, Step.pop s wi f frest hwi hcz⟩
  · cases wo with
    | atom =>
      exact ⟨_, Step.atom s [] rest pa hInv.nworkers (by rw [hpend]; rfl)⟩
    | pfor ws =>
      have h0 := hInv.nworkers
      obtain ⟨stk, hstk⟩ : ∃ stk, s.wstacks.get? 0 = some stk := by
        cases hys : s.wstacks with
        | nil => rw [hys] at h0; simp at h0
        | cons y ys => exact ⟨y, by simp [hys]⟩
      exact ⟨_, Step.pfor s [] rest pa ws 0 stk (by rw [hpend]; rfl) hstk⟩

theorem no_strict_anti (g : Nat → Nat) (h : ∀ k, g (k + 1) < g k) : False := by
  have hb : ∀ k, g k + k ≤ g 0 := by
    intro k
    induction k with
    | zero => simp
    | succ k ih =>
      have := h k
      omega
  have := hb (g 0 + 1)
  omega

theorem no_infinite_chain (f : Nat → SState) (hs : ∀ k, Step (f k) (f (k + 1))) : False :=
  no_strict_anti (fun k => smeasure (f k)) (fun k => smeasure_step (hs k))

end scheduler

/-- C2: in the helping-wait scheduler model, a fork-join computation of any
shape — in particular a `parallel_for` whose body itself calls
`parallel_for`, nested to arbitrary depth over arbitrary ranges — always
terminates without deadlock on a pool of any size from 1 upward: every
execution from the initial state is finite (no infinite step sequence
exists, because a worker's `wait()` performs the pool's work-stealing step
instead of blocking and so every step retires work), and every reachable
state from which no step is possible is a completed state — the caller's
root counter is zero, no task is pending, and no worker still waits. -/
theorem nested_parallel_for_no_deadlock (w : Work) (nw : Nat) (h : 0 < nw) :
    (∀ s, scheduler.Reach (scheduler.init nw w) s →
      (¬ ∃ t, scheduler.Step s t) →
      scheduler.Done s ∧ s.pend = [] ∧ scheduler.allFrames s = []) ∧
    (∀ f : Nat → scheduler.SState, f 0 = scheduler.init nw w →
      (∀ k, scheduler.Step (f k) (f (k + 1))) → False) := by
  constructor
  · intro s hr hstuck
    have hInv := scheduler.inv_reach h hr
    have hD : s.root = 0 := by
      by_contra hnd
      exact hstuck (scheduler.progress hInv hnd)
    obtain ⟨h1, h2⟩ := scheduler.done_state hInv hD
    exact ⟨hD, h1, h2⟩
  · intro f h0 hsteps
    exact scheduler.no_infinite_chain f hsteps

/-- Witness for C2 at a concrete input: pool size one and a single atomic
work item. -/
theorem nested_parallel_for_no_deadlock_witness :
    0 < 1 ∧
    ((∀ s, scheduler.Reach (scheduler.init 1 Work.atom) s →
        (¬ ∃ t, scheduler.Step s t) →
        scheduler.Done s ∧ s.pend = [] ∧ scheduler.allFrames s = []) ∧
      (∀ f : Nat → scheduler.SState, f 0 = scheduler.init 1 Work.atom →
        (∀ k, scheduler.Step (f k) (f (k + 1))) → False)) :=
  ⟨by decide, nested_parallel_for_no_deadlock Work.atom 1 (by decide)⟩

end NestMC
